import Mathlib

/-!
Shallow embedding of the `chromatic-matroids` Python repository
(`matroid_chromatic` package): compositions, set compositions, matroids,
(non-commutative) quasisymmetric functions, and the stability predicate.

Conventions used throughout this development:

* Python `int` values appearing in compositions / set compositions / matroid
  ground sets are positive integers; they are modelled as `Nat`.
  Coefficients of formal sums are modelled as `Int`.
* A Python `frozenset[int]` is modelled as `Finset ℕ`.
* A Python `dict` (insertion ordered) is modelled as an association list
  `List (String × Int)`; writing to a fresh key appends at the end, exactly
  as CPython dicts do.
* Python strings are modelled as `List Char`; `str.join` and `str.split`
  become `List.intercalate` and `List.splitOn`.
* CPython iterates a `set` of small non-negative ints in ascending order for
  the sizes arising here, so `list(set_of_ints)` is modelled as the sorted
  duplicate-free list of its elements.
* Code that can raise is modelled with `Option`/`Except`.
-/

namespace ChromaticMatroids

/-! ### Dictionaries of coefficients (`ncquasisymmetric.py`, `quasisymmetric.py`)

`NCQSymFunction.coefficients` and `QSymFunction.coefficients` are Python
dicts mapping monomial-basis key strings to integer coefficients.  They are
modelled as insertion-ordered association lists. -/

abbrev Coeffs := List (String × Int)

/-- Python `d[k] += v` on a dict that may be missing the key `k`
(the `_addTo` idiom: `if not k in d: d[k] = 0; d[k] += v`).
A missing key is appended at the end, as in CPython. -/
def dictAdd (d : Coeffs) (k : String) (v : Int) : Coeffs :=
  if d.any (fun p => p.1 = k) then
    d.map (fun p => if p.1 = k then (p.1, p.2 + v) else p)
  else
    d ++ [(k, v)]

/-- Model of `NCQSymFunction._addTo` / `QSymFunction._addTo`: fold the entries of `g`
into the receiver's dict, in `g`'s iteration order. -/
def addTo (self g : Coeffs) : Coeffs :=
  g.foldl (fun acc p => dictAdd acc p.1 p.2) self

/-- Model of `NCQSymFunction.__add__` with its heap effects.

`answer = NCQSymFunction(monomial_basis = self.coefficients)` hits the dict
branch of `NCQSymFunction.__init__`, which stores the *same* dict object
(`self.coefficients = item`, no copy — contrast `QSymFunction.__init__`,
which copies via `{i:item[i] for i in item}`).  Hence `answer.coefficients`
aliases `f.coefficients` and `answer._addTo(g)` mutates `f`'s dict.

The value returned is the triple
(state of `f.coefficients` after the call,
 state of `g.coefficients` after the call,
 coefficients of the returned sum). -/
def ncqsym_add (f g : Coeffs) : Coeffs × Coeffs × Coeffs :=
  let answer := addTo f g
  (answer, g, answer)

/-- Model of `NCQSymFunction._scalarMultiple` with its heap effects: `answer` aliases
`self.coefficients` (same missing copy as in `ncqsym_add`), and every value
of the shared dict is multiplied in place.  Returns
(state of `f.coefficients` after, coefficients of the returned function). -/
def ncqsym_scalarMultiple (f : Coeffs) (scalar : Int) : Coeffs × Coeffs :=
  let answer := f.map (fun p => (p.1, p.2 * scalar))
  (answer, answer)

/-- Model of `QSymFunction.__add__` with its heap effects: here
`QSymFunction.__init__` *does* copy the dict
(`self.coefficients = {i:item[i] for i in item}`), so the operands are left
untouched.  Returns (`f` after, `g` after, result). -/
def qsym_add (f g : Coeffs) : Coeffs × Coeffs × Coeffs :=
  (f, g, addTo f g)

/-- Model of `QSymFunction._scalarMultiple` with its heap effects: the receiver is
copied before the in-place multiplication, so `f` is untouched. -/
def qsym_scalarMultiple (f : Coeffs) (scalar : Int) : Coeffs × Coeffs :=
  (f, f.map (fun p => (p.1, p.2 * scalar)))

/-- Model of `NCQSymFunction.__mul__` (`ncquasisymmetric.py`, lines 46-52).

The loop body reads
`SetComposition.quasi_shuffles(t, q)` but neither `t` nor `q` is ever
assigned in this method (its commutative counterpart `QSymFunction.__mul__`
defines `t = Composition(tstr)` and `q = Composition(qstr)`; here the
corresponding assignments are missing).  Consequently the very first
iteration of the inner loop raises `NameError: name 't' is not defined`.
The loops run at least one body iteration exactly when both coefficient
dicts are non-empty; otherwise the freshly created zero `answer` is
returned. -/
def ncqsym_mul (f g : Coeffs) : Except String Coeffs :=
  if f.isEmpty then .ok []
  else if g.isEmpty then .ok []
  else .error "NameError: name t is not defined"

/-! ### Set compositions (`setcompositions.py`) -/

/-- Model of `SetComposition.parts`: a list of blocks, each block a list of positive
integers.  The constructor sorts every block ascending, so constructed
objects always carry sorted blocks. -/
abbrev SCParts := List (List ℕ)

/-- The block-sorting performed at the end of `SetComposition.__init__`
(`for part in self.parts: part.sort()`). -/
def scSortBlocks (parts : SCParts) : SCParts :=
  parts.map (fun part => List.insertionSort (· ≤ ·) part)

/-- Model of `SetComposition.ground_set`: the set of all elements, materialised as a
list (`list(self.ground_set)`); modelled as the ascending duplicate-free
list, which is how CPython lists a set of small ints. -/
def scGroundSet (parts : SCParts) : List ℕ :=
  List.insertionSort (· ≤ ·) parts.flatten.dedup

/-- Model of `SetComposition.__eq__` (`setcompositions.py`, lines 83-91): compares
ground sets, then the number of parts, then runs
`for part1, part2 in zip(...): if not part1 == part1: return False` —
the final loop compares `part1` with *itself*, so it never fails. -/
def scEq (s t : SCParts) : Bool :=
  decide (scGroundSet s = scGroundSet t) &&
  s.length == t.length &&
  (s.zip t).all (fun pp => pp.1 == pp.1)

/-- Membership in the Python constructor's domain: the blocks of a
constructed `SetComposition` are ascending (the constructor sorts them),
every element is a positive integer, and elements are globally distinct
(the constructor raises otherwise). -/
def SCValid (parts : SCParts) : Prop :=
  (∀ part ∈ parts, List.Sorted (· ≤ ·) part) ∧
  (∀ p ∈ parts.flatten, 0 < p) ∧
  parts.flatten.Nodup

instance : DecidablePred SCValid := fun parts => by
  unfold SCValid; infer_instance

/-! ### Compositions (`compositions.py`) -/

/-- The body of `Composition.generate_all_composition` for size `m ≥ 1`,
reading already-memoised results from the table `T` (`T.getD k []` is the
cached list of compositions of `k`):

    answer = [Composition([m])]
    for k in range(1, m):
        for alpha in generate_all_composition(k):
            answer.append(alpha.prepend(m - k))

Python's `range(1, m)` is the list `[1, ..., m-1]`, written here as
`(List.range (m-1)).map (· + 1)`. -/
def compRow (T : List (List (List ℕ))) (m : ℕ) : List (List ℕ) :=
  [m] :: ((List.range (m - 1)).map (· + 1)).flatMap
    (fun k => (T.getD k []).map (fun a => (m - k) :: a))

/-- The memoisation table `Composition._all_generated_compositions_list`:
row `k` holds all compositions of `k`.  Row `0` is seeded with the empty
composition (`[[Composition()]]` at module import), and each further row is
appended by a run of `generate_all_composition`. -/
def genCompTable : ℕ → List (List (List ℕ))
  | 0 => [[[]]]
  | n + 1 => genCompTable n ++ [compRow (genCompTable n) (n + 1)]

/-- Model of `Composition.generate_all_composition(n)`: the `n`-th row of the
memoisation table. -/
def generate_all_composition (n : ℕ) : List (List ℕ) :=
  (genCompTable n).getD n []

theorem length_genCompTable (n : ℕ) : (genCompTable n).length = n + 1 := by
  induction n with
  | zero => rfl
  | succ n ih => simp [genCompTable, ih]

theorem getD_genCompTable_of_le {k n : ℕ} (h : k ≤ n) :
    (genCompTable n).getD k [] = generate_all_composition k := by
  induction n with
  | zero =>
    interval_cases k
    rfl
  | succ n ih =>
    rcases Nat.lt_or_ge k (n + 1) with hk | hk
    · rw [genCompTable, List.getD_append _ _ _ _ (by rw [length_genCompTable]; omega),
        ih (by omega)]
    · have hk' : k = n + 1 := by omega
      subst hk'
      rfl

/-- The recurrence implemented by `generate_all_composition`. -/
theorem generate_all_composition_succ (n : ℕ) :
    generate_all_composition (n + 1) =
      [n + 1] :: ((List.range n).map (· + 1)).flatMap
        (fun k => (generate_all_composition k).map (fun a => (n + 1 - k) :: a)) := by
  have hrow : generate_all_composition (n + 1) = compRow (genCompTable n) (n + 1) := by
    show (genCompTable (n + 1)).getD (n + 1) [] = _
    rw [show genCompTable (n + 1) = genCompTable n ++ [compRow (genCompTable n) (n + 1)] from rfl,
      List.getD_append_right _ _ _ _ (by rw [length_genCompTable])]
    simp [length_genCompTable]
  rw [hrow]
  unfold compRow
  simp only [Nat.add_sub_cancel]
  congr 1
  rw [List.flatMap_def, List.flatMap_def]
  congr 1
  apply List.map_congr_left
  intro k hk
  rcases List.mem_map.mp hk with ⟨j, hj, rfl⟩
  have hlt := List.mem_range.mp hj
  rw [getD_genCompTable_of_le (by omega)]

/-- Sum of the first `n` powers of two, needed for the size of the list of
compositions. -/
theorem sum_range_two_pow (n : ℕ) :
    ((List.range n).map (fun j => 2 ^ j)).sum = 2 ^ n - 1 := by
  induction n with
  | zero => rfl
  | succ n ih =>
    rw [List.range_succ, List.map_append, List.sum_append, ih]
    simp [pow_succ]
    omega

/-- C6: `Composition.generate_all_composition(n)` returns a list of length
`2^(n-1)` for every `n ≥ 1`, and of length `1` for `n = 0` (the empty
composition seeded into the memoisation table). -/
theorem length_generate_all_composition :
    ∀ n : ℕ, (generate_all_composition n).length = if n = 0 then 1 else 2 ^ (n - 1) := by
  intro n
  induction n using Nat.strong_induction_on with
  | _ n ih =>
    match n with
    | 0 => rfl
    | n + 1 =>
      rw [generate_all_composition_succ]
      simp only [List.length_cons, List.flatMap_def, List.length_flatten, List.map_map]
      have hmap : List.map
            (List.length ∘ (fun k => (generate_all_composition k).map fun a => (n + 1 - k) :: a)
              ∘ fun x => x + 1)
            (List.range n) =
          (List.range n).map (fun j => 2 ^ j) := by
        apply List.map_congr_left
        intro j hj
        have hjn := List.mem_range.mp hj
        simp only [Function.comp_apply, List.length_map]
        rw [ih (j + 1) (by omega)]
        simp
      rw [hmap, sum_range_two_pow]
      have h2 : 1 ≤ 2 ^ n := Nat.one_le_two_pow
      simp only [if_neg (Nat.succ_ne_zero n), Nat.add_sub_cancel]
      omega

/-! ### Generating all set compositions (`setcompositions.py`) -/

/-- Python `itertools.combinations(l, k)`: all `k`-element sublists of `l`, in the
lexicographic-by-position order itertools produces. -/
def combinations : ℕ → List ℕ → List (List ℕ)
  | 0, _ => [[]]
  | _ + 1, [] => []
  | k + 1, x :: xs => ((combinations k xs).map (x :: ·)) ++ combinations (k + 1) xs

theorem length_combinations :
    ∀ (k : ℕ) (l : List ℕ), (combinations k l).length = l.length.choose k := by
  intro k l
  induction l generalizing k with
  | nil => cases k <;> rfl
  | cons x xs ih =>
    cases k with
    | zero => rfl
    | succ k =>
      simp only [combinations, List.length_append, List.length_map, ih]
      rw [List.length_cons, Nat.choose_succ_succ]

/-- One element of `SetComposition.relabel` with a list/tuple argument: the
relabeling dict is `zip(self.ground_set, labels)`, so element `p` goes to
the label at `p`'s position in the ground-set list. -/
def relabelApply (ground labels : List ℕ) (p : ℕ) : ℕ :=
  labels.getD (ground.indexOf p) 0

/-- Model of `SetComposition.relabel(labels)` for a list/tuple of labels; the result
goes through the constructor, which re-sorts every block. -/
def scRelabel (parts : SCParts) (labels : List ℕ) : SCParts :=
  scSortBlocks (parts.map (fun part => part.map (relabelApply (scGroundSet parts) labels)))

/-- Python `list(range(1, m+1))`, the ground set used by
`SetComposition.generate_all_setcompositions`. -/
def groundList (m : ℕ) : List ℕ :=
  (List.range m).map (· + 1)

/-- The body of `SetComposition.generate_all_setcompositions` for size
`m ≥ 1`, reading memoised smaller sizes from the table `T`:

    answer = [SetComposition([ground_set])]
    for size_rest in range(1, m):
        smaller = generate_all_setcompositions(size_rest)
        for rest in combinations(ground_set, size_rest):
            first = frozenset([k for k in ground_set if not k in rest])
            for s in smaller:
                answer.append(s.relabel(rest).prepend(first))

`prepend` also goes through the constructor, whence the outer
`scSortBlocks`. -/
def scRow (T : List (List SCParts)) (m : ℕ) : List SCParts :=
  [groundList m] :: ((List.range (m - 1)).map (· + 1)).flatMap
    (fun sizeRest =>
      (combinations sizeRest (groundList m)).flatMap
        (fun rest =>
          (T.getD sizeRest []).map
            (fun sm =>
              scSortBlocks
                ((groundList m).filter (fun k => decide (k ∉ rest)) :: scRelabel sm rest))))

/-- The memoisation table
`SetComposition._all_generated_setcompositions_list`: row `k` holds all set
compositions of `{1, ..., k}`.  Row `0` is seeded with the empty set
composition. -/
def genSCTable : ℕ → List (List SCParts)
  | 0 => [[[]]]
  | n + 1 => genSCTable n ++ [scRow (genSCTable n) (n + 1)]

/-- Model of `SetComposition.generate_all_setcompositions(n)`. -/
def generate_all_setcompositions (n : ℕ) : List SCParts :=
  (genSCTable n).getD n []

theorem length_genSCTable (n : ℕ) : (genSCTable n).length = n + 1 := by
  induction n with
  | zero => rfl
  | succ n ih => simp [genSCTable, ih]

theorem getD_genSCTable_of_le {k n : ℕ} (h : k ≤ n) :
    (genSCTable n).getD k [] = generate_all_setcompositions k := by
  induction n with
  | zero =>
    interval_cases k
    rfl
  | succ n ih =>
    rcases Nat.lt_or_ge k (n + 1) with hk | hk
    · rw [genSCTable, List.getD_append _ _ _ _ (by rw [length_genSCTable]; omega),
        ih (by omega)]
    · have hk' : k = n + 1 := by omega
      subst hk'
      rfl

theorem generate_all_setcompositions_succ (n : ℕ) :
    generate_all_setcompositions (n + 1) = scRow (genSCTable n) (n + 1) := by
  show (genSCTable (n + 1)).getD (n + 1) [] = _
  rw [show genSCTable (n + 1) = genSCTable n ++ [scRow (genSCTable n) (n + 1)] from rfl,
    List.getD_append_right _ _ _ _ (by rw [length_genSCTable])]
  simp [length_genSCTable]

/-- The ordered Bell (Fubini) numbers, by their standard recurrence
`F 0 = 1`, `F (n+1) = ∑_{k=0}^{n} C(n+1, k) · F k`, computed through a
table so that values reduce definitionally. -/
def fubiniTable : ℕ → List ℕ
  | 0 => [1]
  | n + 1 =>
    fubiniTable n ++
      [((List.range (n + 1)).map (fun k => (n + 1).choose k * (fubiniTable n).getD k 0)).sum]

def fubini (n : ℕ) : ℕ :=
  (fubiniTable n).getD n 0

theorem length_fubiniTable (n : ℕ) : (fubiniTable n).length = n + 1 := by
  induction n with
  | zero => rfl
  | succ n ih => simp [fubiniTable, ih]

theorem getD_fubiniTable_of_le {k n : ℕ} (h : k ≤ n) :
    (fubiniTable n).getD k 0 = fubini k := by
  induction n with
  | zero =>
    interval_cases k
    rfl
  | succ n ih =>
    rcases Nat.lt_or_ge k (n + 1) with hk | hk
    · rw [fubiniTable, List.getD_append _ _ _ _ (by rw [length_fubiniTable]; omega),
        ih (by omega)]
    · have hk' : k = n + 1 := by omega
      subst hk'
      rfl

theorem fubini_succ (n : ℕ) :
    fubini (n + 1) =
      ((List.range (n + 1)).map (fun k => (n + 1).choose k * fubini k)).sum := by
  have hrow : fubini (n + 1) =
      ((List.range (n + 1)).map (fun k => (n + 1).choose k * (fubiniTable n).getD k 0)).sum := by
    show (fubiniTable (n + 1)).getD (n + 1) 0 = _
    rw [show fubiniTable (n + 1) = fubiniTable n ++
        [((List.range (n + 1)).map (fun k => (n + 1).choose k * (fubiniTable n).getD k 0)).sum]
      from rfl,
      List.getD_append_right _ _ _ _ (by rw [length_fubiniTable])]
    simp [length_fubiniTable]
  rw [hrow]
  congr 1
  apply List.map_congr_left
  intro k hk
  rw [getD_fubiniTable_of_le (Nat.lt_succ_iff.mp (List.mem_range.mp hk))]

theorem groundList_length (m : ℕ) : (groundList m).length = m := by
  simp [groundList]

theorem sum_map_const_nat {α : Type} (l : List α) (c : ℕ) :
    (l.map (fun _ => c)).sum = l.length * c := by
  induction l with
  | nil => simp
  | cons x xs ih => simp [ih, Nat.succ_mul]; omega

theorem length_generate_all_setcompositions :
    ∀ n : ℕ, (generate_all_setcompositions n).length = fubini n := by
  intro n
  induction n using Nat.strong_induction_on with
  | _ n ih =>
    match n with
    | 0 => rfl
    | n + 1 =>
      rw [generate_all_setcompositions_succ, fubini_succ]
      unfold scRow
      simp only [List.length_cons, List.flatMap_def, List.length_flatten, List.map_map,
        Nat.add_sub_cancel]
      rw [List.range_succ_eq_map, List.map_cons, List.sum_cons, List.map_map]
      have h0 : (n + 1).choose 0 * fubini 0 = 1 := rfl
      rw [h0, Nat.add_comm _ 1]
      congr 1
      congr 1
      apply List.map_congr_left
      intro j hj
      have hjn := List.mem_range.mp hj
      simp only [Function.comp_apply, List.length_flatten, List.map_map, Nat.succ_eq_add_one]
      have hc : (n + 1).choose (j + 1) * fubini (j + 1) =
          (combinations (j + 1) (groundList (n + 1))).length * fubini (j + 1) := by
        rw [length_combinations, groundList_length]
      rw [hc, ← sum_map_const_nat]
      congr 1
      apply List.map_congr_left
      intro rest _
      simp only [Function.comp_apply, List.length_map]
      rw [getD_genSCTable_of_le (by omega), ih (j + 1) (by omega)]

/-! ### Canonical textual encodings (`__str__` / string constructors)

Python strings are modelled as `List Char`; `",".join` / `split(",")`
become `List.intercalate [',']` / `List.splitOn ','`. -/

/-- Python `str(n)` for a non-negative int: its base-10 numeral. -/
def natToChars (n : ℕ) : List Char :=
  if n = 0 then ['0'] else ((Nat.digits 10 n).map Nat.digitChar).reverse

/-- Python `int(s)` on a string: succeeds on non-empty all-digit strings
with their base-10 value (signs and whitespace never arise from `__str__`
output, so they are left out of the model). -/
def parseNat (cs : List Char) : Option ℕ :=
  if cs ≠ [] ∧ cs.all (fun c => c.isDigit) then
    some (cs.foldl (fun a c => 10 * a + (c.toNat - 48)) 0)
  else none

/-- Sequential `Option`-valued map: the list-comprehension idiom
`[f(x) for x in l]` where each `f(x)` may raise. -/
def optionMapList {α β : Type} (f : α → Option β) : List α → Option (List β)
  | [] => some []
  | a :: l =>
    match f a with
    | none => none
    | some b =>
      match optionMapList f l with
      | none => none
      | some bs => some (b :: bs)

theorem digitChar_isDigit : ∀ d < 10, (Nat.digitChar d).isDigit = true := by decide

theorem digitChar_toNat : ∀ d < 10, (Nat.digitChar d).toNat - 48 = d := by decide

theorem mem_natToChars_isDigit (n : ℕ) : ∀ c ∈ natToChars n, c.isDigit = true := by
  intro c hc
  unfold natToChars at hc
  by_cases h : n = 0
  · rw [if_pos h] at hc
    simp at hc
    subst hc
    rfl
  · rw [if_neg h] at hc
    rw [List.mem_reverse, List.mem_map] at hc
    obtain ⟨d, hd, rfl⟩ := hc
    exact digitChar_isDigit d (Nat.digits_lt_base (by norm_num) hd)

theorem natToChars_ne_nil (n : ℕ) : natToChars n ≠ [] := by
  unfold natToChars
  by_cases h : n = 0
  · simp [h]
  · rw [if_neg h]
    simp [Nat.digits_ne_nil_iff_ne_zero.mpr h]

theorem foldl_digitChars (ds : List ℕ) (h : ∀ d ∈ ds, d < 10) :
    ((ds.map Nat.digitChar).reverse.foldl (fun a c => 10 * a + (c.toNat - 48)) 0) =
      Nat.ofDigits 10 ds := by
  rw [List.foldl_reverse]
  induction ds with
  | nil => rfl
  | cons d rest ih =>
    rw [List.map_cons, List.foldr_cons, ih (fun x hx => h x (List.mem_cons_of_mem _ hx))]
    rw [Nat.ofDigits_cons, digitChar_toNat d (h d (List.mem_cons_self _ _))]
    omega

theorem parseNat_natToChars (n : ℕ) : parseNat (natToChars n) = some n := by
  by_cases h : n = 0
  · subst h; decide
  · have hcond : natToChars n ≠ [] ∧ (natToChars n).all (fun c => c.isDigit) := by
      refine ⟨natToChars_ne_nil n, ?_⟩
      rw [List.all_eq_true]
      intro c hc
      exact mem_natToChars_isDigit n c hc
    rw [parseNat, if_pos hcond, natToChars, if_neg h,
      foldl_digitChars _ (fun d hd => Nat.digits_lt_base (by norm_num) hd),
      Nat.ofDigits_digits]

/-- Model of `Composition.__str__`: `"(" + ",".join(str(i) for i in parts) + ")"`. -/
def strComposition (parts : List ℕ) : List Char :=
  '(' :: (List.intercalate [','] (parts.map natToChars) ++ [')'])

/-- The string branch of `Composition.__init__`: `"()"` is the empty
composition, otherwise the first and last characters are stripped and the
remainder is split on `','` and parsed with `int`. -/
def parseComposition (cs : List Char) : Option (List ℕ) :=
  if cs = ['(', ')'] then some []
  else optionMapList parseNat (((cs.drop 1).dropLast).splitOn ',')

/-- Model of `Composition("...")` end to end: parse, then the constructor's
positivity validation. -/
def compositionFromChars (cs : List Char) : Option (List ℕ) :=
  (parseComposition cs).bind fun parts =>
    if ∀ p ∈ parts, 0 < p then some parts else none

/-- Model of `SetComposition.__str__`: blocks joined by `'|'`, elements by `','`. -/
def strSetComposition (parts : SCParts) : List Char :=
  '(' ::
    (List.intercalate ['|']
        (parts.map (fun part => List.intercalate [','] (part.map natToChars))) ++ [')'])

/-- The string branch of `SetComposition.__init__` before validation. -/
def parseSetComposition (cs : List Char) : Option SCParts :=
  if cs = ['(', ')'] then some []
  else
    optionMapList (fun blk => optionMapList parseNat (blk.splitOn ','))
      (((cs.drop 1).dropLast).splitOn '|')

/-- Model of `SetComposition("...")` end to end: parse, validate positivity and
global disjointness, then sort every block (the constructor's
`part.sort()`). -/
def setCompositionFromChars (cs : List Char) : Option SCParts :=
  (parseSetComposition cs).bind fun parts =>
    if (∀ p ∈ parts.flatten, 0 < p) ∧ parts.flatten.Nodup then
      some (scSortBlocks parts)
    else none

/-- The Python expression `SetComposition(str(s)) == s` as it evaluates:
`False` additionally covers a raised constructor exception. -/
def scRoundTrip (parts : SCParts) : Bool :=
  match setCompositionFromChars (strSetComposition parts) with
  | some t => scEq t parts
  | none => false

theorem optionMapList_natToChars (l : List ℕ) :
    optionMapList parseNat (l.map natToChars) = some l := by
  induction l with
  | nil => rfl
  | cons p rest ih =>
    rw [List.map_cons, optionMapList, parseNat_natToChars, ih]

theorem intercalate_cons_cons (sep x y : List Char) (t : List (List Char)) :
    List.intercalate sep (x :: y :: t) = x ++ sep ++ List.intercalate sep (y :: t) := by
  simp [List.intercalate, List.intersperse]

theorem intercalate_single (sep x : List Char) : List.intercalate sep [x] = x := by
  simp [List.intercalate]

theorem intercalate_cons_ne_nil (sep x : List Char) (t : List (List Char)) (hx : x ≠ []) :
    List.intercalate sep (x :: t) ≠ [] := by
  cases t with
  | nil => rw [intercalate_single]; exact hx
  | cons y t' =>
    rw [intercalate_cons_cons]
    simp [hx]

theorem strip_parens (inner : List Char) :
    (('(' :: (inner ++ [')'])).drop 1).dropLast = inner := by
  simp

theorem paren_wrap_ne (inner : List Char) (h : inner ≠ []) :
    ('(' :: (inner ++ [')'])) ≠ ['(', ')'] := by
  intro he
  have hl := congrArg List.length he
  simp at hl
  exact h hl

theorem splitOn_comma_numerals (l : List ℕ) (hl : l ≠ []) :
    (List.intercalate [','] (l.map natToChars)).splitOn ',' = l.map natToChars := by
  apply List.splitOn_intercalate
  · intro x hx hc
    rcases List.mem_map.mp hx with ⟨n, _, rfl⟩
    have := mem_natToChars_isDigit n ',' hc
    simp at this
  · simpa using hl

/-- Round trip for compositions: the constructor applied to `str(c)` gives
back exactly the parts of `c`. -/
theorem compositionFromChars_str (parts : List ℕ) (hpos : ∀ p ∈ parts, 0 < p) :
    compositionFromChars (strComposition parts) = some parts := by
  cases parts with
  | nil => decide
  | cons p rest =>
    have hinner : List.intercalate [','] ((p :: rest).map natToChars) ≠ [] := by
      rw [List.map_cons]
      exact intercalate_cons_ne_nil _ _ _ (natToChars_ne_nil p)
    unfold compositionFromChars strComposition parseComposition
    rw [if_neg (paren_wrap_ne _ hinner), strip_parens,
      splitOn_comma_numerals _ (by simp), optionMapList_natToChars]
    simp only [Option.some_bind]
    rw [if_pos hpos]

theorem mem_intercalate_comma (ls : List (List Char))
    (hd : ∀ l ∈ ls, ∀ c ∈ l, c.isDigit = true) :
    ∀ c ∈ List.intercalate [','] ls, c.isDigit = true ∨ c = ',' := by
  induction ls with
  | nil => intro c hc; simp [List.intercalate] at hc
  | cons x t ih =>
    cases t with
    | nil =>
      rw [intercalate_single]
      intro c hc
      exact Or.inl (hd x (by simp) c hc)
    | cons y t' =>
      rw [intercalate_cons_cons]
      intro c hc
      rcases List.mem_append.mp hc with hc' | hc'
      · rcases List.mem_append.mp hc' with hc'' | hc''
        · exact Or.inl (hd x (by simp) c hc'')
        · simp at hc''
          exact Or.inr hc''
      · exact ih (fun l hl => hd l (List.mem_cons_of_mem _ hl)) c hc'

theorem splitOn_bar_blocks (blocks : List (List Char))
    (hdig : ∀ l ∈ blocks, ∀ c ∈ l, c.isDigit = true ∨ c = ',')
    (hne : blocks ≠ []) :
    (List.intercalate ['|'] blocks).splitOn '|' = blocks := by
  apply List.splitOn_intercalate
  · intro x hx hc
    rcases hdig x hx '|' hc with h | h
    · simp at h
    · simp at h
  · exact hne

theorem optionMapList_blocks (ps : SCParts) (hblocks : ∀ part ∈ ps, part ≠ []) :
    optionMapList (fun blk => optionMapList parseNat (blk.splitOn ','))
      (ps.map (fun part => List.intercalate [','] (part.map natToChars))) = some ps := by
  induction ps with
  | nil => rfl
  | cons part rest ih =>
    rw [List.map_cons, optionMapList, splitOn_comma_numerals part (hblocks part (by simp)),
      optionMapList_natToChars, ih (fun q hq => hblocks q (List.mem_cons_of_mem _ hq))]

theorem scSortBlocks_eq_self (parts : SCParts)
    (h : ∀ part ∈ parts, List.Sorted (· ≤ ·) part) :
    scSortBlocks parts = parts := by
  unfold scSortBlocks
  conv_rhs => rw [← List.map_id parts]
  apply List.map_congr_left
  intro part hp
  rw [List.Sorted.insertionSort_eq (h part hp)]
  rfl

/-- Round trip for set compositions whose blocks are all non-empty: the
constructor applied to `str(s)` gives back exactly the (sorted) parts of
`s`. -/
theorem setCompositionFromChars_str (parts : SCParts) (hvalid : SCValid parts)
    (hblocks : ∀ part ∈ parts, part ≠ []) :
    setCompositionFromChars (strSetComposition parts) = some parts := by
  obtain ⟨hsorted, hpos, hnodup⟩ := hvalid
  cases parts with
  | nil => decide
  | cons b bs =>
    have hfirst : List.intercalate [','] (b.map natToChars) ≠ [] := by
      cases b with
      | nil => exact absurd rfl (hblocks [] (by simp))
      | cons q qs =>
        rw [List.map_cons]
        exact intercalate_cons_ne_nil _ _ _ (natToChars_ne_nil q)
    have hinner :
        List.intercalate ['|']
          ((b :: bs).map (fun part => List.intercalate [','] (part.map natToChars))) ≠ [] := by
      rw [List.map_cons]
      exact intercalate_cons_ne_nil _ _ _ hfirst
    have hdig : ∀ l ∈ (b :: bs).map (fun part => List.intercalate [','] (part.map natToChars)),
        ∀ c ∈ l, c.isDigit = true ∨ c = ',' := by
      intro l hl c hc
      rcases List.mem_map.mp hl with ⟨part, _, rfl⟩
      exact mem_intercalate_comma _ (by
        intro d hdm c' hc'
        rcases List.mem_map.mp hdm with ⟨n, _, rfl⟩
        exact mem_natToChars_isDigit n c' hc') c hc
    unfold setCompositionFromChars strSetComposition parseSetComposition
    rw [if_neg (paren_wrap_ne _ hinner), strip_parens,
      splitOn_bar_blocks _ hdig (by simp), optionMapList_blocks _ hblocks]
    simp only [Option.some_bind]
    rw [if_pos ⟨hpos, hnodup⟩, scSortBlocks_eq_self _ hsorted]

/-! ### Matroids (`matroids.py`) -/

/-- The set computed by the exchange check of `Matroid._validate_matroid`
(line 51): `frozenset(B2 | {i} - {j})`.  Python evaluates `|` and `-` left
to right, so this is `(B2 ∪ {i}) \ {j}` — with `i` drawn from `B2` and `j`
from outside `B2`, not the `(B2 ∪ {j}) \ {i}` of the docstring. -/
def exchangeTestSet (B2 : Finset ℕ) (i j : ℕ) : Finset ℕ :=
  (B2 ∪ {i}) \ {j}

/-- The inner search of `Matroid._validate_matroid` for a fixed ordered pair
of distinct bases: some `i ∈ B2 \ B1` and `j ∈ B1 \ B2` whose
`exchangeTestSet` is again a basis. -/
def exchangeFound (bases : Finset (Finset ℕ)) (B1 B2 : Finset ℕ) : Prop :=
  ∃ i ∈ B2, i ∉ B1 ∧ ∃ j ∈ B1, j ∉ B2 ∧ exchangeTestSet B2 i j ∈ bases

instance (bases : Finset (Finset ℕ)) (B1 B2 : Finset ℕ) :
    Decidable (exchangeFound bases B1 B2) := by
  unfold exchangeFound; infer_instance

/-- Model of `Matroid._validate_matroid`: raises when the basis family is empty, or
when some ordered pair of distinct bases admits no successful exchange
search. -/
def validate_matroid (bases : Finset (Finset ℕ)) : Except String Unit :=
  if bases = ∅ then
    .error "Matroid not well defined: Basis axiom 1 not verified"
  else if ∃ B1 ∈ bases, ∃ B2 ∈ bases, B1 ≠ B2 ∧ ¬ exchangeFound bases B1 B2 then
    .error "Matroid not well defined: Basis axiom 2 not verified"
  else
    .ok ()

structure Matroid where
  ground_set : Finset ℕ
  bases_sets : Finset (Finset ℕ)
deriving DecidableEq

/-- Model of `Matroid.__init__`: store the data and run `_validate_matroid`. -/
def matroidInit (ground : Finset ℕ) (bases : Finset (Finset ℕ)) :
    Except String Matroid :=
  match validate_matroid bases with
  | .error e => .error e
  | .ok _ => .ok ⟨ground, bases⟩

/-- The per-element step of `Matroid.extend`.

The Python loop

    for basis_set in new_bases_sets:
        for i in basis_set:
            if i in self.ground_set:
                new_bases_sets.add(frozenset(basis_set - {i} | {element}))

adds candidates to the very set being iterated.  CPython raises
`RuntimeError: Set changed size during iteration` at the next call of the
set iterator after any size change — including the final, exhausting call —
so the loop raises exactly when some candidate `(B \ {i}) ∪ {element}` is
not already a member of the family; no-op re-insertions are harmless.
Before that, `element in new_ground_set` raises if the element is already
present. -/
def extendStep (origGround : Finset ℕ) (state : Finset ℕ × Finset (Finset ℕ))
    (element : ℕ) : Except String (Finset ℕ × Finset (Finset ℕ)) :=
  if element ∈ state.1 then
    .error "Element already in ground set"
  else if ∃ B ∈ state.2, ∃ i ∈ B, i ∈ origGround ∧
      insert element (B.erase i) ∉ state.2 then
    .error "RuntimeError: Set changed size during iteration"
  else
    .ok (insert element state.1, state.2)

/-- Model of `Matroid.extend`: fold `extendStep` over the elements, then run the
constructor on the result (`return Matroid(new_ground_set, new_bases_sets)`).
Exceptions propagate. -/
def Matroid.extend (m : Matroid) (elements : List ℕ) : Except String Matroid := do
  let s ← elements.foldlM (extendStep m.ground_set) (m.ground_set, m.bases_sets)
  matroidInit s.1 s.2

/-! ### Stability (`stable_matroids_setcompositions.py`) -/

/-- The score of one basis, from the comprehension
`sum([len([i for i in pi if i in base])*index for index, pi in enumerate(opi.parts)])`. -/
def score (opi : SCParts) (base : Finset ℕ) : ℕ :=
  (opi.enum.map (fun p => (p.2.filter (fun i => i ∈ base)).length * p.1)).sum

/-- Model of `stable_matroids_setcompositions`: build the multiset of basis scores
and test whether the maximal score occurs exactly once
(`scores.count(max(scores)) == 1`).  Python's `max` of the non-empty score
list coincides with `Finset.sup` of the scores, which is what we use. -/
def stable_matroids_setcompositions (m : Matroid) (opi : SCParts) : Bool :=
  (m.bases_sets.val.map (score opi)).count (m.bases_sets.sup (score opi)) == 1

/-! ### Helper lemmas about the validation and the stability predicate -/

/-- With `i` drawn from `B2` and `j` from outside `B2`, the tested set
`(B2 ∪ {i}) \ {j}` is `B2` itself, so the inner search succeeds exactly
when both difference sets are inhabited. -/
theorem exchangeFound_iff (bases : Finset (Finset ℕ)) (B1 B2 : Finset ℕ)
    (hB2 : B2 ∈ bases) :
    exchangeFound bases B1 B2 ↔ (B2 \ B1).Nonempty ∧ (B1 \ B2).Nonempty := by
  constructor
  · rintro ⟨i, hi, hiB1, j, hj, hjB2, -⟩
    exact ⟨⟨i, Finset.mem_sdiff.mpr ⟨hi, hiB1⟩⟩, ⟨j, Finset.mem_sdiff.mpr ⟨hj, hjB2⟩⟩⟩
  · rintro ⟨⟨i, hi⟩, ⟨j, hj⟩⟩
    rw [Finset.mem_sdiff] at hi hj
    refine ⟨i, hi.1, hi.2, j, hj.1, hj.2, ?_⟩
    have htest : exchangeTestSet B2 i j = B2 := by
      unfold exchangeTestSet
      rw [Finset.union_eq_left.mpr (Finset.singleton_subset_iff.mpr hi.1)]
      rw [Finset.sdiff_eq_self_iff_disjoint.mpr (Finset.disjoint_singleton_right.mpr hj.2)]
    rw [htest]
    exact hB2

theorem scEq_self (t : SCParts) : scEq t t = true := by
  simp [scEq]

instance {ε α : Type} [DecidableEq ε] [DecidableEq α] : DecidableEq (Except ε α)
  | .error e, .error f =>
    if h : e = f then .isTrue (by rw [h]) else .isFalse (fun hc => h (by injection hc))
  | .error _, .ok _ => .isFalse (fun hc => Except.noConfusion hc)
  | .ok _, .error _ => .isFalse (fun hc => Except.noConfusion hc)
  | .ok x, .ok y =>
    if h : x = y then .isTrue (by rw [h]) else .isFalse (fun hc => h (by injection hc))

/-! ### Claim theorems -/

/-- C1, counterexample: constructing a `Matroid` with ground set `{1,2,3}`
and the single basis `{1,2}` does *not* raise — the constructor returns the
matroid, because the exchange loop never runs for a one-element basis
family.  This refutes the claim's assertion that this construction fails
with an axiom violation. -/
theorem c1_single_basis_accepted :
    matroidInit {1, 2, 3} {{1, 2}} =
      Except.ok (Matroid.mk {1, 2, 3} {{1, 2}}) := by decide

/-- C1 (amended): `Matroid.__init__` raises exactly when the basis family
is empty or contains two distinct comparable bases.  The exchange check is
vacuous for incomparable pairs: the tested set `frozenset(B2 | {i} - {j})`
evaluates left to right to `(B2 ∪ {i}) \ {j} = B2`, which is always a
basis, so a violation of the true exchange axiom is never detected. -/
theorem c1_validate_matroid_characterisation (bases : Finset (Finset ℕ)) :
    validate_matroid bases = Except.ok () ↔
      bases.Nonempty ∧
        ∀ B1 ∈ bases, ∀ B2 ∈ bases, B1 ≠ B2 → ¬ B2 ⊆ B1 ∧ ¬ B1 ⊆ B2 := by
  unfold validate_matroid
  split_ifs with h1 h2
  · subst h1
    simp
  · constructor
    · intro h
      simp at h
    · rintro ⟨hne, hall⟩
      exfalso
      obtain ⟨B1, hB1, B2, hB2, hne12, hnf⟩ := h2
      apply hnf
      rw [exchangeFound_iff bases B1 B2 hB2, Finset.sdiff_nonempty, Finset.sdiff_nonempty]
      exact ⟨(hall B1 hB1 B2 hB2 hne12).1, (hall B1 hB1 B2 hB2 hne12).2⟩
  · constructor
    · intro _
      refine ⟨Finset.nonempty_iff_ne_empty.mpr h1, ?_⟩
      intro B1 hB1 B2 hB2 hne12
      push_neg at h2
      have hfound := h2 B1 hB1 B2 hB2 hne12
      rw [exchangeFound_iff bases B1 B2 hB2, Finset.sdiff_nonempty,
        Finset.sdiff_nonempty] at hfound
      exact hfound
    · intro _
      rfl

/-- C2: multiplying two non-zero `NCQSymFunction`s raises
`NameError` because `__mul__` references the undefined names `t` and `q`;
it never computes the quasi-shuffle bilinear extension.  Shown at the
failing input `f = M_{(1)}`, `g = M_{(2)}`. -/
theorem c2_ncqsym_mul_name_error :
    ncqsym_mul [("(1)", 1)] [("(2)", 1)] =
      Except.error "NameError: name t is not defined" := rfl

/-- C3: `NCQSymFunction.__add__` mutates its left operand.  At
`f = M_{(1)}` and `g = M_{(1)}`, after `f + g` the coefficient dict of `f`
has become `{"(1)": 2}` — the result dict aliases `f.coefficients` because
`NCQSymFunction.__init__` stores the passed dict without copying.  The
triple is (`f` after, `g` after, result). -/
theorem c3_ncqsym_add_mutates_operand :
    ncqsym_add [("(1)", 1)] [("(1)", 1)] =
        ([("(1)", 2)], [("(1)", 1)], [("(1)", 2)]) ∧
      ([("(1)", (2 : Int))] : Coeffs) ≠ [("(1)", 1)] := by
  constructor
  · rfl
  · decide

/-- C4, counterexample: for the rank-2 uniform matroid on `{1,2,3}` and the
set composition `(3|1,2)` the claim predicts `False` (it claims the scores
are `0,1,1`), but the code computes scores `2,1,1` — basis `{1,2}` has both
elements in block index `1` — whose maximum `2` is attained once, so the
predicate returns `True`. -/
theorem c4_counterexample_three_one_two :
    stable_matroids_setcompositions ⟨{1, 2, 3}, {{1, 2}, {1, 3}, {2, 3}}⟩ [[3], [1, 2]] =
      true := by decide

/-- C4 (amended): `stable_matroids_setcompositions` returns `True` iff
exactly one basis attains the maximal score, where
`score(B) = Σ_{i ∈ B ∩ ⋃ blocks} (0-based index of the block containing i)`;
on the uniform matroid of rank 2 over `{1,2,3}` the results are `False`
for `({1,2,3})` (scores all equal), `True` for `(3|1,2)` (scores `2,1,1`)
and `True` for `(1|2|3)` (scores `1,2,3`). -/
theorem c4_stable_unique_argmax :
    (∀ (m : Matroid) (opi : SCParts),
        stable_matroids_setcompositions m opi = true ↔
          (m.bases_sets.filter
            (fun B => score opi B = m.bases_sets.sup (score opi))).card = 1) ∧
      stable_matroids_setcompositions ⟨{1, 2, 3}, {{1, 2}, {1, 3}, {2, 3}}⟩
        [[1, 2, 3]] = false ∧
      stable_matroids_setcompositions ⟨{1, 2, 3}, {{1, 2}, {1, 3}, {2, 3}}⟩
        [[3], [1, 2]] = true ∧
      stable_matroids_setcompositions ⟨{1, 2, 3}, {{1, 2}, {1, 3}, {2, 3}}⟩
        [[1], [2], [3]] = true := by
  refine ⟨?_, by decide, by decide, by decide⟩
  intro m opi
  unfold stable_matroids_setcompositions
  rw [beq_iff_eq, Multiset.count_map]
  have hswap : (m.bases_sets.val.filter
        (fun B => m.bases_sets.sup (score opi) = score opi B)) =
      (m.bases_sets.val.filter
        (fun B => score opi B = m.bases_sets.sup (score opi))) := by
    apply Multiset.filter_congr
    intro B _
    exact eq_comm
  rw [hswap]
  constructor
  · intro h
    rw [Finset.card_def, Finset.filter_val]
    exact h
  · intro h
    rw [Finset.card_def, Finset.filter_val] at h
    exact h

/-- C5, counterexample: `SetComposition([[]])` is accepted by the
constructor (`SCValid [[]]` holds: the constructor checks nothing about
empty blocks), but its string form is `"()"`, which parses back to the set
composition with *no* blocks; `__eq__` then fails on the block counts
(0 ≠ 1).  So `SetComposition(str(s)) == s` is `False` at `s = [[]]`. -/
theorem c5_counterexample_empty_block :
    SCValid [[]] ∧ scRoundTrip [[]] = false := by decide

/-- C5 (amended): parse → format → parse is the identity for every
`Composition`, and for every `SetComposition` all of whose blocks are
non-empty; `Composition(str(c))` even reproduces the parts structurally,
hence `==`-equal, and similarly for set compositions (for which the final
`scRoundTrip` conjunct is exactly the Python `SetComposition(str(s)) == s`). -/
theorem c5_roundtrip_parse_format_parse :
    (∀ parts : List ℕ, (∀ p ∈ parts, 0 < p) →
        compositionFromChars (strComposition parts) = some parts) ∧
      (∀ parts : SCParts, SCValid parts → (∀ part ∈ parts, part ≠ []) →
        setCompositionFromChars (strSetComposition parts) = some parts ∧
          scRoundTrip parts = true) := by
  constructor
  · exact compositionFromChars_str
  · intro parts hvalid hblocks
    have h := setCompositionFromChars_str parts hvalid hblocks
    refine ⟨h, ?_⟩
    unfold scRoundTrip
    rw [h]
    exact scEq_self parts

/-- Witness for C5: the round trip at the concrete composition `(2,1,3)`
and the concrete set composition `(2,4|1|3,5,6)`. -/
theorem c5_roundtrip_witness :
    ((∀ p ∈ [2, 1, 3], 0 < p) ∧
        compositionFromChars (strComposition [2, 1, 3]) = some [2, 1, 3]) ∧
      (SCValid [[2, 4], [1], [3, 5, 6]] ∧
        (∀ part ∈ [[2, 4], [1], [3, 5, 6]], part ≠ ([] : List ℕ)) ∧
        setCompositionFromChars (strSetComposition [[2, 4], [1], [3, 5, 6]]) =
          some [[2, 4], [1], [3, 5, 6]] ∧
        scRoundTrip [[2, 4], [1], [3, 5, 6]] = true) :=
  ⟨⟨by decide, c5_roundtrip_parse_format_parse.1 _ (by decide)⟩,
    by
      refine ⟨by decide, by decide, ?_, ?_⟩
      · exact (c5_roundtrip_parse_format_parse.2 _ (by decide) (by decide)).1
      · exact (c5_roundtrip_parse_format_parse.2 _ (by decide) (by decide)).2⟩

theorem head_generate_all_setcompositions (n : ℕ) :
    (generate_all_setcompositions (n + 1)).head? = some [groundList (n + 1)] := by
  rw [generate_all_setcompositions_succ]
  rfl

/-- C7: `SetComposition.generate_all_setcompositions(n)` returns
`fubini n` set compositions — the `n`-th ordered Bell number, with values
`1, 1, 3, 13` for `n = 0, 1, 2, 3` — and for `n ≥ 1` the first element of
the list is the single-block set composition on `{1, ..., n}`. -/
theorem c7_generate_all_setcompositions_spec :
    (∀ n : ℕ, (generate_all_setcompositions n).length = fubini n) ∧
      fubini 0 = 1 ∧ fubini 1 = 1 ∧ fubini 2 = 3 ∧ fubini 3 = 13 ∧
      ∀ n : ℕ, (generate_all_setcompositions (n + 1)).head? =
        some [groundList (n + 1)] :=
  ⟨length_generate_all_setcompositions, rfl, rfl, by decide, by decide,
    head_generate_all_setcompositions⟩

/-- C8: `Matroid.extend` never performs the claimed extension on an
ordinary matroid: the candidate bases are added to the very set being
iterated, so CPython raises `RuntimeError`.  Shown at the valid matroid
with ground set `{1}` and single basis `{1}`, extended by the fresh
element `2`: the claim predicts the matroid `({1,2}, {{1},{2}})`, the code
raises. -/
theorem c8_extend_raises_runtime_error :
    matroidInit {1} {{1}} = Except.ok (Matroid.mk {1} {{1}}) ∧
      Matroid.extend ⟨{1}, {{1}}⟩ [2] =
        Except.error "RuntimeError: Set changed size during iteration" := by
  constructor
  · decide
  · decide

/-- C9, counterexample: for the constructible matroid `({1,2}, {{1}})` and
the set composition `(2)` — which does not cover the basis element `1` —
the stability predicate raises nothing and returns the boolean `True`. -/
theorem c9_counterexample_returns_boolean :
    stable_matroids_setcompositions ⟨{1, 2}, {{1}}⟩ [[2]] = true := by decide

/-- C9 (amended): `stable_matroids_setcompositions` performs no domain
check whatsoever.  A basis element lying in no block of `opi` silently
contributes `0` to the score — the score only depends on the part of the
basis covered by the blocks — and a boolean is always returned, as on the
uncovered example `({1,2}, {{1}})` with `opi = (2)`. -/
theorem c9_no_domain_check :
    (∀ (opi : SCParts) (B : Finset ℕ),
        score opi B = score opi (B.filter (fun i => i ∈ opi.flatten))) ∧
      matroidInit {1, 2} {{1}} = Except.ok (Matroid.mk {1, 2} {{1}}) ∧
      stable_matroids_setcompositions ⟨{1, 2}, {{1}}⟩ [[2]] = true := by
  refine ⟨?_, by decide, by decide⟩
  intro opi B
  unfold score
  congr 1
  apply List.map_congr_left
  intro p hp
  have hblock : p.2 ∈ opi := by
    have hget := List.mem_enum_iff_getElem?.mp hp
    exact List.getElem?_mem hget
  congr 1
  congr 1
  apply List.filter_congr
  intro i hi
  have hflat : i ∈ opi.flatten := List.mem_flatten.mpr ⟨p.2, hblock, hi⟩
  simp only [Finset.mem_filter, List.mem_flatten, decide_eq_decide]
  constructor
  · intro hB
    exact ⟨hB, ⟨p.2, hblock, hi⟩⟩
  · intro hB
    exact hB.1

/-- C10: `SetComposition.__eq__` compares only the ground set and the
number of blocks (its block-by-block loop compares each block with
itself), so set compositions with equal ground sets and equally many
blocks are `==`-equal no matter how the blocks differ; in particular
`SetComposition("(1|2)") == SetComposition("(2|1)")`. -/
theorem c10_scEq_ground_and_length :
    (∀ s t : SCParts,
        scEq s t = true ↔ scGroundSet s = scGroundSet t ∧ s.length = t.length) ∧
      scEq [[1], [2]] [[2], [1]] = true := by
  refine ⟨?_, by decide⟩
  intro s t
  unfold scEq
  simp [List.all_eq_true]

end ChromaticMatroids
